import Mathlib

/-!
Verification of the bootstrapped ensemble estimator with randomized prior
functions (`BootstrappedEstimator` in `src/models.py` of the
`floringogianu/graveyard` repository, `theodon-tabular` project).

Tensors are shallowly embedded as rectangular lists of exact rationals
(batch × output dimension); the torch operations the estimator uses
(`stack(...).mean(0)`, `stack(...).var(0)`, `+`, scalar fill) are embedded
element-wise.  `torch.var` is the unbiased sample variance (normalised by
`B - 1`); its float `NaN` output (arising as `0/0` when `B = 1`) is
represented by `Option.none` on each element.
-/

namespace Theodon

/-- A 2-D tensor (batch × output dimension) of exact rationals. -/
abbrev Tensor2 := List (List ℚ)

/-- Element-wise binary operation on 2-D tensors (torch broadcasting is never
needed here: all operands have identical shapes). -/
def t2map2 (f : ℚ → ℚ → ℚ) (a b : Tensor2) : Tensor2 :=
  List.zipWith (List.zipWith f) a b

/-- Element-wise tensor addition (`y + p`, `ys.sum`). -/
def t2add (a b : Tensor2) : Tensor2 := t2map2 (· + ·) a b

/-- Element-wise tensor subtraction (used for deviations from the mean). -/
def t2sub (a b : Tensor2) : Tensor2 := t2map2 (· - ·) a b

/-- Element-wise tensor multiplication (used for squared deviations). -/
def t2mul (a b : Tensor2) : Tensor2 := t2map2 (· * ·) a b

/-- Multiplication of a tensor by a scalar. -/
def t2smul (q : ℚ) (t : Tensor2) : Tensor2 := t.map (List.map (fun v => q * v))

/-- Sum of a list of same-shaped tensors (the reduction inside
`torch.stack(ys, 0).mean(0)` / `.var(0)`). -/
def t2sum (ys : List Tensor2) : Tensor2 :=
  match ys with
  | [] => []
  | y :: r => r.foldl t2add y

/-- `torch.stack(ys, 0).mean(0)`: element-wise mean across the new leading
axis. -/
def stackMean (ys : List Tensor2) : Tensor2 :=
  t2smul (1 / (ys.length : ℚ)) (t2sum ys)

/-- `torch.stack(ys, 0).var(0)`: element-wise unbiased sample variance across
the new leading axis, normalised by `length - 1`.  For a single stacked
tensor the float computation is `0 / 0 = NaN` on every element; `NaN` is
represented as `none`. -/
def stackVar (ys : List Tensor2) : List (List (Option ℚ)) :=
  match ys with
  | [] => []
  | y :: _ =>
    if ys.length ≤ 1 then y.map (fun row => row.map (fun _ => (none : Option ℚ)))
    else
      let μ := stackMean ys
      let s := t2sum (ys.map (fun z => t2mul (t2sub z μ) (t2sub z μ)))
      (t2smul (1 / ((ys.length : ℚ) - 1)) s).map (fun row => row.map some)

/-- Element access with the usual 0 default (only quoted at in-range
indices). -/
def t2get (t : Tensor2) (b c : Nat) : ℚ := (t.getD b []).getD c 0

/-- Element access into a variance tensor (`none` = `NaN`). -/
def vget (t : List (List (Option ℚ))) (b c : Nat) : Option ℚ :=
  (t.getD b []).getD c none

/-- `t` is a rectangular `n × d` tensor. -/
def HasShape (t : Tensor2) (n d : Nat) : Prop :=
  t.length = n ∧ ∀ r ∈ t, r.length = d

instance (t : Tensor2) (n d : Nat) : Decidable (HasShape t n d) := by
  unfold HasShape; infer_instance

instance {ε α : Type} [DecidableEq ε] [DecidableEq α] : DecidableEq (Except ε α) :=
  fun a b =>
    match a, b with
    | .ok a, .ok b =>
      if h : a = b then isTrue (by rw [h]) else isFalse (by simp [h])
    | .error a, .error b =>
      if h : a = b then isTrue (by rw [h]) else isFalse (by simp [h])
    | .ok _, .error _ => isFalse (by simp)
    | .error _, .ok _ => isFalse (by simp)

/-! ## The estimator model

`BootstrappedEstimator` (models.py:64-187) wraps an externally supplied
prototype estimator.  The prototype is embedded as an abstract module-state
type `M` together with the capabilities the ensemble actually uses
(`Arch`): the forward pass, Python attribute lookup of `weight`
(`None`/failure models `AttributeError`), in-place overwrite of
`weight.data`, and the names of the module's trainable parameter tensors.

Randomness is made explicit: `reset_parameters()` draws are supplied as a
function `resets : Nat → M` (the state of member `i` after its reset), and
`D.Normal(loc, scale).sample()` draws are supplied per call as
`sample : Nat → W` (the `k`-th sample drawn during that call).  A prior
distribution `D.Normal(loc, full_like(loc, 0.1 * beta))` is represented by
its parameters `(loc, 0.1 * beta)`.

Python object identity matters for parameter grouping, so a stored module
is an `Obj M`: an object id (fresh ids are allocated by construction and by
`deepcopy`) plus the module state; in-place mutation keeps the id. -/

/-- Python runtime errors surfaced by the estimator code. -/
inductive PyErr
| attributeError
| indexError
deriving DecidableEq

/-- A Python object: identity plus current module state.  `deepcopy`
allocates a fresh id; in-place mutation (`obj.weight.data = ...`) keeps
the id. -/
structure Obj (M : Type) where
  oid : Nat
  state : M
deriving DecidableEq

/-- The estimator capability contract consumed by the ensemble (spec §6):
`run m x` is the forward pass `m(x)`; `getWeight m` is attribute lookup
`m.weight` (`none` = `AttributeError`); `setWeightData m w` is the in-place
assignment `m.weight.data = w`; `paramNames` are the names of the module's
trainable parameter tensors (what `m.parameters()` enumerates). -/
structure Arch (M W : Type) where
  run : M → Tensor2 → Tensor2
  getWeight : M → Option W
  setWeightData : M → W → M
  paramNames : List String

/-- A reference to one parameter tensor: the owning object's identity plus
the parameter's name inside the module. -/
abbrev PRef := Nat × String

/-- The parameter tensors of one stored module (`model.parameters()`). -/
def Arch.paramsOf {M W : Type} (A : Arch M W) (o : Obj M) : List PRef :=
  A.paramNames.map (fun nm => (o.oid, nm))

/-- Python list indexing semantics: a negative index `i` addresses position
`len + i`; anything still outside `[0, len)` is an `IndexError`. -/
def pyIdxN (len : Nat) (i : Int) : Option Nat :=
  let j : Int := if i < 0 then i + (len : Int) else i
  if 0 ≤ j ∧ j < (len : Int) then some j.toNat else none

/-- `l[i]` with Python list-index semantics (`none` = `IndexError`). -/
def pyGet {α : Type} (l : List α) (i : Int) : Option α :=
  (pyIdxN l.length i).bind (fun j => l[j]?)

/-- The ensemble container state (`BootstrappedEstimator.__init__`,
models.py:68-97): the name-mangled fields `__ensemble`, `__bno`, `__beta`,
`__prior_fns` and `__priors`. -/
structure BootstrappedEstimator (M W : Type) where
  ensemble : List (Obj M)
  bno : Nat
  beta : ℚ
  prior_fns : List (Obj M)
  priors : List (W × ℚ)
deriving DecidableEq

namespace BootstrappedEstimator

/-- The prior-setup loop's sequence of `model.weight.data` snapshots
(models.py:92-95): it fails (`none` = `AttributeError`) as soon as one
member lacks the `weight` attribute, exactly as the Python loop raises at
its first `model.weight` lookup. -/
def weightsOf {M W : Type} (A : Arch M W) : List (Obj M) → Option (List W)
  | [] => some []
  | o :: rest =>
    match A.getWeight o.state, weightsOf A rest with
    | some w, some ws => some (w :: ws)
    | _, _ => none

/-- `__init__(proto_model, B, beta)` (models.py:68-97): `B` deep copies of
the prototype (fresh object ids `0..B-1`), each reset (`resets i` is member
`i`'s state after `reset_parameters()`).  If `beta` is truthy, one more deep
copy per member becomes its prior function (fresh ids `B..2B-1`), and for
each member a distribution `Normal(loc, 0.1 * beta)` is recorded, `loc`
being that member's `weight.data` — attribute lookup `model.weight` raises
`AttributeError` when the prototype has no `weight` attribute. -/
def init {M W : Type} (A : Arch M W) (resets : Nat → M) (B : Nat) (beta : ℚ) :
    Except PyErr (BootstrappedEstimator M W) :=
  if beta ≠ 0 then
    match weightsOf A ((List.range B).map (fun i => ⟨i, resets i⟩)) with
    | none => .error .attributeError
    | some locs =>
      .ok ⟨(List.range B).map (fun i => ⟨i, resets i⟩), B, beta,
        (List.range B).map (fun i => ⟨B + i, resets i⟩),
        locs.map (fun loc => (loc, 1/10 * beta))⟩
  else
    .ok ⟨(List.range B).map (fun i => ⟨i, resets i⟩), B, beta, [], []⟩

/-- The in-place loop `for prior, prior_fn in zip(self.__priors,
self.__prior_fns): prior_fn.weight.data = prior.sample()`
(models.py:119-120): overwrites the weight of the first
`min(|priors|, |prior_fns|)` prior functions with fresh samples, keeping
object identities.  `k` is the index of the next sample to draw, `n` the
number of `(prior, prior_fn)` pairs left to process. -/
def resampleAll {M W : Type} (A : Arch M W) (sample : Nat → W) :
    Nat → List (Obj M) → Nat → List (Obj M)
  | _, [], _ => []
  | _, o :: rest, 0 => o :: rest
  | k, o :: rest, n + 1 =>
    ⟨o.oid, A.setWeightData o.state (sample k)⟩
      :: resampleAll A sample (k + 1) rest n

/-- `forward(x, mid)` (models.py:99-129).  With `mid` given: index member
`mid` (Python list indexing), compute `y = member(x)`; if priors exist,
overwrite `prior_fns[mid].weight.data` with a fresh sample of
`priors[mid]` and add `prior_fns[mid](x)` to `y`.  With `mid` omitted: if
priors exist resample every prior function, pair members with prior
functions and sum their outputs, else take the raw member outputs; stack
the outputs and return their mean along the new leading axis. -/
def forward {M W : Type} (A : Arch M W) (st : BootstrappedEstimator M W)
    (x : Tensor2) (mid : Option Int) (sample : Nat → W) :
    Except PyErr (Tensor2 × BootstrappedEstimator M W) :=
  match mid with
  | some m =>
    match pyGet st.ensemble m with
    | none => .error .indexError
    | some memb =>
      let y := A.run memb.state x
      if st.priors.isEmpty then .ok (y, st)
      else
        match pyGet st.priors m with
        | none => .error .indexError
        | some _ =>
          match pyIdxN st.prior_fns.length m with
          | none => .error .indexError
          | some j =>
            match st.prior_fns[j]? with
            | none => .error .indexError
            | some pf =>
              let pfState := A.setWeightData pf.state (sample 0)
              .ok (t2add y (A.run pfState x),
                { st with prior_fns := st.prior_fns.set j ⟨pf.oid, pfState⟩ })
  | none =>
    if st.priors.isEmpty then
      .ok (stackMean (st.ensemble.map (fun o => A.run o.state x)), st)
    else
      let pfs := resampleAll A sample 0 st.prior_fns st.priors.length
      let ys := List.zipWith
        (fun mo po => t2add (A.run mo.state x) (A.run po.state x))
        st.ensemble pfs
      .ok (stackMean ys, { st with prior_fns := pfs })

/-- Result of `var`: the full per-batch, per-output variance tensor, or the
scalar picked out by an `action` index (`none` inside = a `NaN` entry). -/
inductive VarOut
| full (v : List (List (Option ℚ)))
| scalar (q : Option ℚ)
deriving DecidableEq

/-- `var(x, action)` (models.py:131-149): stack the raw member predictions
(prior functions are not involved), take the element-wise variance over the
leading axis; with `action` given return `var[0][action]` (tensor indexing,
out of range is an `IndexError`), else the full tensor. -/
def var {M W : Type} (A : Arch M W) (st : BootstrappedEstimator M W)
    (x : Tensor2) (action : Option Nat) : Except PyErr VarOut :=
  let ys := st.ensemble.map (fun o => A.run o.state x)
  match action with
  | none => .ok (.full (stackVar ys))
  | some a =>
    match (stackVar ys)[0]? with
    | none => .error .indexError
    | some row =>
      match row[a]? with
      | none => .error .indexError
      | some q => .ok (.scalar q)

/-- `parameters()` (models.py:151-158): one parameter group per ensemble
member, in ensemble order, each group holding exactly that member's
trainable parameter tensors (the `{"params": model.parameters()}` dict is
represented by its `params` entry). -/
def parameters {M W : Type} (A : Arch M W) (st : BootstrappedEstimator M W) :
    List (List PRef) :=
  st.ensemble.map (fun o => A.paramsOf o)

/-- `__len__` (models.py:186-187). -/
def len {M W : Type} (st : BootstrappedEstimator M W) : Nat :=
  st.ensemble.length

/-- `__iter__` (models.py:183-184): iteration yields the ensemble members
in order. -/
def iter {M W : Type} (st : BootstrappedEstimator M W) : List (Obj M) :=
  st.ensemble

end BootstrappedEstimator

/-- One call made against the ensemble after construction: a `forward`
pass (with its per-call stream of prior samples) or a `var` query. -/
inductive Op (W : Type)
| fwd (x : Tensor2) (mid : Option Int) (sample : Nat → W)
| varCall (x : Tensor2) (action : Option Nat)

/-- State evolution of one call: `forward` replaces the state by its
post-call state (a raised error leaves the state untouched, since the
mutation happens after all indexing); `var` never mutates. -/
def step {M W : Type} (A : Arch M W) (st : BootstrappedEstimator M W) :
    Op W → BootstrappedEstimator M W
  | .fwd x mid sample =>
    match BootstrappedEstimator.forward A st x mid sample with
    | .ok (_, st') => st'
    | .error _ => st
  | .varCall _ _ => st

/-- State after a sequence of `forward`/`var` calls. -/
def runOps {M W : Type} (A : Arch M W) (st : BootstrappedEstimator M W)
    (ops : List (Op W)) : BootstrappedEstimator M W :=
  ops.foldl (step A) st

/-- `w` is one of the prior-distribution samples drawn by `op`. -/
def Op.hasDraw {W : Type} : Op W → W → Prop
  | .fwd _ _ sample, w => ∃ k, w = sample k
  | .varCall _ _, _ => False

/-- `w` is one of the prior-distribution samples drawn by some call in
`ops`. -/
def drawOf {W : Type} (ops : List (Op W)) (w : W) : Prop :=
  ∃ op ∈ ops, op.hasDraw w

/-! ## The repository's concrete prototypes -/

/-- Row-with-row dot product. -/
def dot (u v : List ℚ) : ℚ := (List.zipWith (fun a b => a * b) u v).sum

/-- `torch.nn.Linear(in_size, out_size, bias=True)`: a weight matrix of
shape `out × in` and a bias vector of length `out`. -/
structure Linear where
  weight : Tensor2
  bias : List ℚ
deriving DecidableEq

/-- The affine map `x @ weight.T + bias`, row by row. -/
def Linear.fwd (l : Linear) (x : Tensor2) : Tensor2 :=
  x.map (fun row => List.zipWith (fun wr b => dot wr row + b) l.weight l.bias)

/-- Element-wise `F.relu`. -/
def relu2 (t : Tensor2) : Tensor2 := t.map (List.map (fun q => max q 0))

/-- `LinearEstimator` (models.py:43-60): its only instance attribute is
`linear` (an `nn.Linear`); `nn.Module` attribute lookup does not descend
into submodules, so `model.weight` raises `AttributeError`. -/
structure LinearEstimator where
  linear : Linear
deriving DecidableEq

/-- `LinearEstimator.forward` (models.py:51-55), after the byte-input view
and float conversion: the wrapped affine map. -/
def LinearEstimator.fwd (m : LinearEstimator) (x : Tensor2) : Tensor2 :=
  m.linear.fwd x

/-- The capability view of `LinearEstimator`: no top-level `weight`
attribute, parameters `linear.weight` and `linear.bias`.  `setWeightData`
is never reachable (prior setup fails at `model.weight` first). -/
def linearArch : Arch LinearEstimator Tensor2 where
  run := fun m x => m.fwd x
  getWeight := fun _ => none
  setWeightData := fun m _ => m
  paramNames := ["linear.weight", "linear.bias"]

/-- `NonLinearEstimator` (models.py:22-41): instance attributes `fc1` and
`fc2`, both `nn.Linear`; no attribute named `weight`. -/
structure NonLinearEstimator where
  fc1 : Linear
  fc2 : Linear
deriving DecidableEq

/-- `NonLinearEstimator.forward` (models.py:32-36): `fc2(relu(fc1(x)))`
after the byte-input view and float conversion. -/
def NonLinearEstimator.fwd (m : NonLinearEstimator) (x : Tensor2) : Tensor2 :=
  m.fc2.fwd (relu2 (m.fc1.fwd x))

/-- The capability view of `NonLinearEstimator`: no top-level `weight`
attribute either. -/
def nonLinearArch : Arch NonLinearEstimator Tensor2 where
  run := fun m x => m.fwd x
  getWeight := fun _ => none
  setWeightData := fun m _ => m
  paramNames := ["fc1.weight", "fc1.bias", "fc2.weight", "fc2.bias"]

/-- A minimal single-`weight` prototype (a bias-free `nn.Linear`-style
module whose whole state is one scalar weight `w`, forward pass
`x ↦ w * x`), used to instantiate the generic theorems on concrete
numbers. -/
def scalarArch : Arch ℚ ℚ where
  run := fun w x => t2smul w x
  getWeight := fun w => some w
  setWeightData := fun _ w => w
  paramNames := ["weight"]

/-! ## Concrete instantiation material for witnesses -/

/-- Concrete reset draws for the scalar prototype: member `i` resets to
weight `i`. -/
def scalarResets : Nat → ℚ := fun i => (i : ℚ)

/-- Concrete prior-sample draws: the `k`-th draw of a call is `k + 5`. -/
def scalarSamples : Nat → ℚ := fun k => ((k + 5 : Nat) : ℚ)

/-- The ensemble built by `init scalarArch scalarResets 3 0`. -/
def stB3 : BootstrappedEstimator ℚ ℚ :=
  ⟨[⟨0, 0⟩, ⟨1, 1⟩, ⟨2, 2⟩], 3, 0, [], []⟩

/-- The ensemble built by `init scalarArch scalarResets 2 1` (priors on). -/
def stB2p : BootstrappedEstimator ℚ ℚ :=
  ⟨[⟨0, 0⟩, ⟨1, 1⟩], 2, 1, [⟨2, 0⟩, ⟨3, 1⟩],
    [(0, 1/10 * 1), (1, 1/10 * 1)]⟩

/-- The ensemble built by `init scalarArch scalarResets 1 0`. -/
def stB1 : BootstrappedEstimator ℚ ℚ := ⟨[⟨0, 0⟩], 1, 0, [], []⟩

/-- The ensemble built by `init scalarArch scalarResets 2 0`. -/
def stB2 : BootstrappedEstimator ℚ ℚ := ⟨[⟨0, 0⟩, ⟨1, 1⟩], 2, 0, [], []⟩

/-- The ensemble built by `init scalarArch scalarResets 1 1` (priors on). -/
def stB1p : BootstrappedEstimator ℚ ℚ :=
  ⟨[⟨0, 0⟩], 1, 1, [⟨1, 0⟩], [(0, 1/10 * 1)]⟩

/-- A concrete `LinearEstimator` instance. -/
def protoLinear : LinearEstimator := ⟨⟨[[1]], [0]⟩⟩

/-- A concrete `NonLinearEstimator` instance. -/
def protoNonLinear : NonLinearEstimator := ⟨⟨[[1]], [0]⟩, ⟨[[1]], [0]⟩⟩

open BootstrappedEstimator

/-! ## Tensor lemmas -/

theorem HasShape.row {t : Tensor2} {n d : Nat} (h : HasShape t n d)
    {i : Nat} (hi : i < n) : ∃ r, t[i]? = some r ∧ r.length = d := by
  obtain ⟨hlen, hrow⟩ := h
  have hi' : i < t.length := by omega
  exact ⟨t[i], by simp [List.getElem?_eq_getElem hi'], hrow _ (t.getElem_mem hi')⟩

theorem t2get_eq {t : Tensor2} {b c : Nat} :
    t2get t b c = ((t[b]?.getD []).getD c 0 : ℚ) := by
  simp [t2get, List.getD]

theorem t2get_out {t : Tensor2} {n d : Nat} (h : HasShape t n d)
    {b : Nat} (hb : n ≤ b) (c : Nat) : t2get t b c = 0 := by
  obtain ⟨hlen, -⟩ := h
  have : t.length ≤ b := by omega
  simp [t2get_eq, List.getElem?_eq_none this]

theorem t2map2_shape (f : ℚ → ℚ → ℚ) {a b : Tensor2} {n d : Nat}
    (ha : HasShape a n d) (hb : HasShape b n d) :
    HasShape (t2map2 f a b) n d := by
  obtain ⟨hal, har⟩ := ha
  obtain ⟨hbl, hbr⟩ := hb
  constructor
  · simp [t2map2, hal, hbl]
  · intro r hr
    simp only [t2map2, List.mem_iff_get?] at hr
    obtain ⟨i, hi⟩ := hr
    rw [List.get?_eq_getElem?, List.getElem?_zipWith'] at hi
    cases hra : a[i]? with
    | none => simp [hra] at hi
    | some ra =>
      cases hrb : b[i]? with
      | none => simp [hra, hrb] at hi
      | some rb =>
        simp only [hra, hrb, Option.map_some', Option.bind_some] at hi
        cases hi
        have h1 : ra.length = d := har _ (List.getElem?_mem hra)
        have h2 : rb.length = d := hbr _ (List.getElem?_mem hrb)
        simp [h1, h2]

theorem t2get_map2 (f : ℚ → ℚ → ℚ) (hf : f 0 0 = 0) {a b : Tensor2} {n d : Nat}
    (ha : HasShape a n d) (hb : HasShape b n d) (i j : Nat) :
    t2get (t2map2 f a b) i j = f (t2get a i j) (t2get b i j) := by
  by_cases hi : i < n
  · obtain ⟨ra, hra, hral⟩ := ha.row hi
    obtain ⟨rb, hrb, hrbl⟩ := hb.row hi
    have hz : (t2map2 f a b)[i]? = some (List.zipWith f ra rb) := by
      simp [t2map2, List.getElem?_zipWith', hra, hrb]
    by_cases hj : j < d
    · have hj1 : j < ra.length := by omega
      have hj2 : j < rb.length := by omega
      simp [t2get, List.getD, hz, hra, hrb, List.getElem?_zipWith',
        List.getElem?_eq_getElem hj1, List.getElem?_eq_getElem hj2]
    · have hj1 : ra.length ≤ j := by omega
      have hj2 : rb.length ≤ j := by omega
      simp [t2get, List.getD, hz, hra, hrb, List.getElem?_zipWith',
        List.getElem?_eq_none hj1, List.getElem?_eq_none hj2, hf]
  · have h1 := t2get_out ha (by omega : n ≤ i) j
    have h2 := t2get_out hb (by omega : n ≤ i) j
    have h3 := t2get_out (t2map2_shape f ha hb) (by omega : n ≤ i) j
    rw [h1, h2, h3, hf]

theorem t2get_add {a b : Tensor2} {n d : Nat}
    (ha : HasShape a n d) (hb : HasShape b n d) (i j : Nat) :
    t2get (t2add a b) i j = t2get a i j + t2get b i j :=
  t2get_map2 _ (by norm_num) ha hb i j

theorem t2get_sub {a b : Tensor2} {n d : Nat}
    (ha : HasShape a n d) (hb : HasShape b n d) (i j : Nat) :
    t2get (t2sub a b) i j = t2get a i j - t2get b i j :=
  t2get_map2 _ (by norm_num) ha hb i j

theorem t2get_mul {a b : Tensor2} {n d : Nat}
    (ha : HasShape a n d) (hb : HasShape b n d) (i j : Nat) :
    t2get (t2mul a b) i j = t2get a i j * t2get b i j :=
  t2get_map2 _ (by norm_num) ha hb i j

theorem t2smul_shape (q : ℚ) {t : Tensor2} {n d : Nat} (h : HasShape t n d) :
    HasShape (t2smul q t) n d := by
  obtain ⟨hl, hr⟩ := h
  refine ⟨by simp [t2smul, hl], ?_⟩
  intro r hr'
  simp only [t2smul, List.mem_map] at hr'
  obtain ⟨r0, hr0, rfl⟩ := hr'
  simp [hr _ hr0]

theorem t2get_smul (q : ℚ) (t : Tensor2) (i j : Nat) :
    t2get (t2smul q t) i j = q * t2get t i j := by
  cases hi : t[i]? with
  | none =>
    have : (t2smul q t)[i]? = none := by
      simp only [t2smul]
      simpa [List.getElem?_map] using congrArg (Option.map (List.map (fun v => q * v))) hi
    simp [t2get_eq, hi, this]
  | some r =>
    have h2 : (t2smul q t)[i]? = some (r.map (fun v => q * v)) := by
      simp [t2smul, List.getElem?_map, hi]
    cases hj : r[j]? with
    | none =>
      have hj2 : (r.map (fun v => q * v))[j]? = none := by
        simpa [List.getElem?_map] using congrArg (Option.map (fun v => q * v)) hj
      simp [t2get_eq, hi, h2, List.getD, hj, hj2]
    | some v =>
      have hj2 : (r.map (fun v => q * v))[j]? = some (q * v) := by
        simp [List.getElem?_map, hj]
      simp [t2get_eq, hi, h2, List.getD, hj, hj2]

theorem t2add_shape {a b : Tensor2} {n d : Nat}
    (ha : HasShape a n d) (hb : HasShape b n d) : HasShape (t2add a b) n d :=
  t2map2_shape _ ha hb

theorem t2sub_shape {a b : Tensor2} {n d : Nat}
    (ha : HasShape a n d) (hb : HasShape b n d) : HasShape (t2sub a b) n d :=
  t2map2_shape _ ha hb

theorem t2mul_shape {a b : Tensor2} {n d : Nat}
    (ha : HasShape a n d) (hb : HasShape b n d) : HasShape (t2mul a b) n d :=
  t2map2_shape _ ha hb

theorem t2add_foldl_shape {acc : Tensor2} {ys : List Tensor2} {n d : Nat}
    (hacc : HasShape acc n d) (hys : ∀ y ∈ ys, HasShape y n d) :
    HasShape (ys.foldl t2add acc) n d := by
  induction ys generalizing acc with
  | nil => simpa using hacc
  | cons y r ih =>
    simp only [List.foldl_cons]
    exact ih (t2map2_shape _ hacc (hys y (List.mem_cons_self y r)))
      (fun z hz => hys z (List.mem_cons_of_mem _ hz))

theorem t2get_foldl {acc : Tensor2} {ys : List Tensor2} {n d : Nat}
    (hacc : HasShape acc n d) (hys : ∀ y ∈ ys, HasShape y n d) (i j : Nat) :
    t2get (ys.foldl t2add acc) i j
      = t2get acc i j + (ys.map (fun y => t2get y i j)).sum := by
  induction ys generalizing acc with
  | nil => simp
  | cons y r ih =>
    simp only [List.foldl_cons, List.map_cons, List.sum_cons]
    rw [ih (t2add_shape hacc (hys y (List.mem_cons_self y r)))
      (fun z hz => hys z (List.mem_cons_of_mem _ hz)),
      t2get_add hacc (hys y (List.mem_cons_self y r))]
    ring

theorem t2sum_shape {ys : List Tensor2} {n d : Nat} (hne : ys ≠ [])
    (hys : ∀ y ∈ ys, HasShape y n d) : HasShape (t2sum ys) n d := by
  cases ys with
  | nil => exact absurd rfl hne
  | cons y r =>
    exact t2add_foldl_shape (hys y (List.mem_cons_self y r))
      (fun z hz => hys z (List.mem_cons_of_mem _ hz))

theorem t2get_sum {ys : List Tensor2} {n d : Nat}
    (hys : ∀ y ∈ ys, HasShape y n d) (i j : Nat) :
    t2get (t2sum ys) i j = (ys.map (fun y => t2get y i j)).sum := by
  cases ys with
  | nil => simp [t2sum, t2get]
  | cons y r =>
    simp only [t2sum, List.map_cons, List.sum_cons]
    rw [t2get_foldl (hys y (List.mem_cons_self y r))
      (fun z hz => hys z (List.mem_cons_of_mem _ hz))]

theorem t2get_stackMean {ys : List Tensor2} {n d : Nat}
    (hys : ∀ y ∈ ys, HasShape y n d) (i j : Nat) :
    t2get (stackMean ys) i j
      = (ys.map (fun y => t2get y i j)).sum / (ys.length : ℚ) := by
  rw [stackMean, t2get_smul, t2get_sum hys]
  ring

theorem stackMean_shape {ys : List Tensor2} {n d : Nat} (hne : ys ≠ [])
    (hys : ∀ y ∈ ys, HasShape y n d) : HasShape (stackMean ys) n d :=
  t2smul_shape _ (t2sum_shape hne hys)

theorem vget_mapsome {t : Tensor2} {n d : Nat} (h : HasShape t n d)
    {b c : Nat} (hb : b < n) (hc : c < d) :
    vget (t.map (fun row => row.map some)) b c = some (t2get t b c) := by
  obtain ⟨r, hr, hrl⟩ := h.row hb
  have hc' : c < r.length := by omega
  simp [vget, t2get, List.getD, List.getElem?_map, hr,
    List.getElem?_eq_getElem hc']

theorem vget_mapnone {t : Tensor2} {n d : Nat} (h : HasShape t n d)
    {b c : Nat} (hb : b < n) (hc : c < d) :
    vget (t.map (fun row => row.map (fun _ => (none : Option ℚ)))) b c
      = none := by
  obtain ⟨r, hr, hrl⟩ := h.row hb
  have hc' : c < r.length := by omega
  simp [vget, List.getD, List.getElem?_map, hr, List.getElem?_eq_getElem hc']

/-- On a single stacked tensor, `torch.var(0)` is `0 / 0 = NaN` at every
element. -/
theorem vget_stackVar_single {y : Tensor2} {n d : Nat} (h : HasShape y n d)
    {b c : Nat} (hb : b < n) (hc : c < d) :
    vget (stackVar [y]) b c = none := by
  have : stackVar [y]
      = y.map (fun row => row.map (fun _ => (none : Option ℚ))) := by
    simp [stackVar]
  rw [this]
  exact vget_mapnone h hb hc

/-- On `B ≥ 2` stacked tensors, `torch.var(0)` is element-wise the unbiased
sample variance: the sum of squared deviations from the mean, normalised by
`B - 1`. -/
theorem vget_stackVar {ys : List Tensor2} {n d : Nat}
    (h2 : 2 ≤ ys.length) (hys : ∀ y ∈ ys, HasShape y n d)
    {b c : Nat} (hb : b < n) (hc : c < d) :
    vget (stackVar ys) b c =
      some ((ys.map (fun y => (t2get y b c -
          (ys.map (fun z => t2get z b c)).sum / (ys.length : ℚ)) ^ 2)).sum
        / ((ys.length : ℚ) - 1)) := by
  cases ys with
  | nil => simp at h2
  | cons y rest =>
    have hne : (y :: rest) ≠ ([] : List Tensor2) := by simp
    have hμ : HasShape (stackMean (y :: rest)) n d := stackMean_shape hne hys
    have hsqshape : ∀ z ∈ (y :: rest).map (fun z =>
        t2mul (t2sub z (stackMean (y :: rest))) (t2sub z (stackMean (y :: rest)))),
        HasShape z n d := by
      intro z hz
      simp only [List.mem_map] at hz
      obtain ⟨z0, hz0, rfl⟩ := hz
      exact t2mul_shape (t2sub_shape (hys _ hz0) hμ)
        (t2sub_shape (hys _ hz0) hμ)
    have hif : ¬ ((y :: rest).length ≤ 1) := by
      simp only [List.length_cons] at h2 ⊢; omega
    have hrw : stackVar (y :: rest)
        = (t2smul (1 / (((y :: rest).length : ℚ) - 1))
        (t2sum ((y :: rest).map (fun z =>
          t2mul (t2sub z (stackMean (y :: rest)))
            (t2sub z (stackMean (y :: rest))))))).map
        (fun row => row.map some) := by
      simp only [stackVar]
      rw [if_neg hif]
    have hneM : ((y :: rest).map (fun z =>
        t2mul (t2sub z (stackMean (y :: rest)))
          (t2sub z (stackMean (y :: rest))))) ≠ [] := by simp
    rw [hrw, vget_mapsome (t2smul_shape _ (t2sum_shape hneM hsqshape)) hb hc,
      t2get_smul, t2get_sum hsqshape, List.map_map]
    have hpt : ∀ z ∈ (y :: rest), ((fun t => t2get t b c) ∘ fun z =>
        t2mul (t2sub z (stackMean (y :: rest))) (t2sub z (stackMean (y :: rest)))) z
        = (t2get z b c - ((y :: rest).map (fun w => t2get w b c)).sum
            / (((y :: rest).length : ℚ))) ^ 2 := by
      intro z hz
      have hzs := hys _ hz
      simp only [Function.comp]
      rw [t2get_mul (t2sub_shape hzs hμ) (t2sub_shape hzs hμ),
        t2get_sub hzs hμ, t2get_stackMean hys]
      ring
    rw [List.map_congr_left hpt]
    exact congrArg some (by ring)

/-! ## Structural lemmas about indexing and construction -/

theorem pyIdxN_nonneg {len : Nat} {m : Int} (h0 : 0 ≤ m)
    (hlt : m < (len : Int)) : pyIdxN len m = some m.toNat := by
  simp only [pyIdxN]
  rw [if_neg (by omega : ¬ m < 0), if_pos ⟨h0, hlt⟩]

theorem pyIdxN_negIdx {len : Nat} {m : Int} (hlo : 0 ≤ m + (len : Int))
    (hm : m < 0) : pyIdxN len m = some (m + (len : Int)).toNat := by
  simp only [pyIdxN]
  rw [if_pos hm, if_pos ⟨hlo, by omega⟩]

theorem pyIdxN_none {len : Nat} {m : Int}
    (h : (len : Int) ≤ m ∨ m + (len : Int) < 0) : pyIdxN len m = none := by
  simp only [pyIdxN]
  rcases h with h | h
  · rw [if_neg (by omega : ¬ m < 0), if_neg (by omega)]
  · rw [if_pos (by omega : m < 0), if_neg (by omega)]

theorem pyIdxN_lt {len : Nat} {m : Int} {j : Nat}
    (h : pyIdxN len m = some j) : j < len := by
  simp only [pyIdxN] at h
  by_cases hm : m < 0
  · rw [if_pos hm] at h
    split at h
    · injection h with h; omega
    · exact Option.noConfusion h
  · rw [if_neg hm] at h
    split at h
    · injection h with h; omega
    · exact Option.noConfusion h

theorem pyGet_of_idx {α : Type} {l : List α} {m : Int} {j : Nat}
    (h : pyIdxN l.length m = some j) : pyGet l m = l[j]? := by
  simp [pyGet, h]

theorem pyGet_none {α : Type} {l : List α} {m : Int}
    (h : pyIdxN l.length m = none) : pyGet l m = none := by
  simp [pyGet, h]

theorem getElem?_rangeMap {α : Type} {f : Nat → α} {B j : Nat} (hj : j < B) :
    ((List.range B).map f)[j]? = some (f j) := by
  simp [List.getElem?_map, List.getElem?_range, hj]

theorem getElem?_rangeMap_none {α : Type} {f : Nat → α} {B j : Nat}
    (hj : B ≤ j) : ((List.range B).map f)[j]? = none :=
  List.getElem?_eq_none (by simpa using hj)

namespace BootstrappedEstimator

theorem weightsOf_cons_none {M W : Type} {A : Arch M W} {o : Obj M}
    {rest : List (Obj M)} (h : A.getWeight o.state = none) :
    weightsOf A (o :: rest) = none := by
  simp [weightsOf, h]

theorem weightsOf_length {M W : Type} {A : Arch M W} :
    ∀ {l : List (Obj M)} {ws : List W}, weightsOf A l = some ws →
      ws.length = l.length := by
  intro l
  induction l with
  | nil =>
    intro ws h
    simp only [weightsOf, Option.some_inj] at h
    subst h
    rfl
  | cons o rest ih =>
    intro ws h
    simp only [weightsOf] at h
    split at h
    · rename_i w ws' _ hws
      injection h with h
      subst h
      simp [ih hws]
    · exact Option.noConfusion h

theorem weightsOf_getElem? {M W : Type} {A : Arch M W} :
    ∀ {l : List (Obj M)} {ws : List W}, weightsOf A l = some ws →
      ∀ i : Nat, ws[i]? = (l[i]?).bind (fun o : Obj M => A.getWeight o.state) := by
  intro l
  induction l with
  | nil =>
    intro ws h i
    simp only [weightsOf, Option.some_inj] at h
    subst h
    simp
  | cons o rest ih =>
    intro ws h i
    simp only [weightsOf] at h
    split at h
    · rename_i w ws' hw hws
      injection h with h
      subst h
      cases i with
      | zero => simp [hw]
      | succ i' => simpa using ih hws i'
    · exact Option.noConfusion h

theorem resampleAll_length {M W : Type} (A : Arch M W) (sample : Nat → W) :
    ∀ (k : Nat) (l : List (Obj M)) (n : Nat),
      (resampleAll A sample k l n).length = l.length := by
  intro k l
  induction l generalizing k with
  | nil => intro n; cases n <;> simp [resampleAll]
  | cons o rest ih =>
    intro n
    cases n with
    | zero => simp [resampleAll]
    | succ n' => simp [resampleAll, ih (k + 1) n']

theorem resampleAll_getElem? {M W : Type} (A : Arch M W) (sample : Nat → W) :
    ∀ (k : Nat) (l : List (Obj M)) (n i : Nat),
      (resampleAll A sample k l n)[i]? = (l[i]?).map (fun o =>
        if i < n then ⟨o.oid, A.setWeightData o.state (sample (k + i))⟩
        else o) := by
  intro k l
  induction l generalizing k with
  | nil => intro n i; cases n <;> simp [resampleAll]
  | cons o rest ih =>
    intro n i
    cases n with
    | zero => simp [resampleAll]
    | succ n' =>
      cases i with
      | zero => simp [resampleAll]
      | succ i' =>
        have harith : k + 1 + i' = k + (i' + 1) := by omega
        simp only [resampleAll, List.getElem?_cons_succ, ih (k + 1) n' i',
          harith, Nat.add_lt_add_iff_right]

theorem init_elim {M W : Type} {A : Arch M W} {resets : Nat → M} {B : Nat}
    {beta : ℚ} {st : BootstrappedEstimator M W}
    (h : init A resets B beta = .ok st) :
    st.ensemble = (List.range B).map (fun i => ⟨i, resets i⟩) ∧
    st.bno = B ∧ st.beta = beta ∧
    ((beta = 0 ∧ st.prior_fns = [] ∧ st.priors = []) ∨
      (beta ≠ 0 ∧
        st.prior_fns = (List.range B).map (fun i => ⟨B + i, resets i⟩) ∧
        ∃ locs : List W,
          weightsOf A ((List.range B).map (fun i => ⟨i, resets i⟩))
            = some locs ∧
          st.priors = locs.map (fun loc => (loc, 1/10 * beta)))) := by
  unfold init at h
  split at h
  · rename_i hβ
    split at h
    · exact Except.noConfusion h
    · rename_i locs hlocs
      injection h with h
      subst h
      exact ⟨rfl, rfl, rfl, Or.inr ⟨hβ, rfl, locs, hlocs, rfl⟩⟩
  · rename_i hβ
    injection h with h
    subst h
    exact ⟨rfl, rfl, rfl, Or.inl ⟨by simpa using hβ, rfl, rfl⟩⟩

end BootstrappedEstimator

/-- `p ∈ o.parameters()` determines the owning object. -/
theorem Arch.fst_of_mem_paramsOf {M W : Type} {A : Arch M W} {o : Obj M}
    {p : PRef} (hp : p ∈ A.paramsOf o) : p.1 = o.oid := by
  obtain ⟨nm, -, rfl⟩ := List.mem_map.mp hp
  rfl


/-! ## Claims -/

/-- C7: for an ensemble constructed with size `B`, `len(ensemble) = B`, and
iterating yields exactly the `B` member instances in construction order
(member `i`, object id `i`, at position `i`), pairwise distinct (distinct
object identities), and no yielded object is a prior function. -/
theorem ensemble_len_iter {M W : Type} {A : Arch M W} {resets : Nat → M}
    {B : Nat} {beta : ℚ} {st : BootstrappedEstimator M W}
    (h : init A resets B beta = .ok st) :
    len st = B ∧
    iter st = (List.range B).map (fun i => ⟨i, resets i⟩) ∧
    ((iter st).map Obj.oid).Nodup ∧
    ∀ o ∈ iter st, o ∉ st.prior_fns := by
  obtain ⟨hens, hbno, hbeta, hrest⟩ := init_elim h
  refine ⟨?_, ?_, ?_, ?_⟩
  · simp [len, hens]
  · simp [iter, hens]
  · rw [iter, hens, List.map_map]
    have hc : (Obj.oid ∘ fun i => (⟨i, resets i⟩ : Obj M)) = id := rfl
    rw [hc, List.map_id]
    exact List.nodup_range B
  · intro o ho hmem
    rw [iter, hens] at ho
    obtain ⟨i, hi, rfl⟩ := List.mem_map.mp ho
    have hiB : i < B := List.mem_range.mp hi
    rcases hrest with ⟨-, hpf, -⟩ | ⟨-, hpf, -⟩
    · rw [hpf] at hmem
      exact List.not_mem_nil _ hmem
    · rw [hpf] at hmem
      obtain ⟨j, -, hj2⟩ := List.mem_map.mp hmem
      have hoid : B + j = i := congrArg Obj.oid hj2
      omega

/-- Witness for the C7 theorem at `B = 3`, `beta = 0`. -/
theorem ensemble_len_iter_witness :
    len stB3 = 3 ∧
    iter stB3 = (List.range 3).map (fun i => ⟨i, scalarResets i⟩) ∧
    ((iter stB3).map Obj.oid).Nodup ∧
    ∀ o ∈ iter stB3, o ∉ stB3.prior_fns :=
  @ensemble_len_iter ℚ ℚ scalarArch scalarResets 3 0 stB3 (by decide)

/-- C6: `parameters()` yields exactly `B` groups, the `i`-th being exactly
member `i`'s parameter tensors; the groups are pairwise disjoint; their
union is the union of the members' parameters; and no prior-function
parameter occurs in any group. -/
theorem parameters_grouping {M W : Type} {A : Arch M W} {resets : Nat → M}
    {B : Nat} {beta : ℚ} {st : BootstrappedEstimator M W}
    (h : init A resets B beta = .ok st) :
    (parameters A st).length = B ∧
    (∀ i : Nat, (parameters A st)[i]? = (st.ensemble[i]?).map A.paramsOf) ∧
    List.Pairwise List.Disjoint (parameters A st) ∧
    (∀ p : PRef, p ∈ (parameters A st).flatten ↔
      ∃ o ∈ st.ensemble, p ∈ A.paramsOf o) ∧
    (∀ o ∈ st.prior_fns, ∀ p ∈ A.paramsOf o, ∀ g ∈ parameters A st,
      p ∉ g) := by
  obtain ⟨hens, hbno, hbeta, hrest⟩ := init_elim h
  have hpar : parameters A st
      = (List.range B).map (fun i => A.paramsOf ⟨i, resets i⟩) := by
    rw [parameters, hens, List.map_map]
    rfl
  refine ⟨?_, ?_, ?_, ?_, ?_⟩
  · simp [hpar]
  · intro i
    simp [parameters, List.getElem?_map]
  · rw [hpar]
    rw [List.pairwise_map]
    refine (List.pairwise_lt_range B).imp ?_
    intro i j hij p hp1 hp2
    have h1 : p.1 = i := Arch.fst_of_mem_paramsOf hp1
    have h2 : p.1 = j := Arch.fst_of_mem_paramsOf hp2
    omega
  · intro p
    simp only [parameters, List.mem_flatten, List.mem_map]
    constructor
    · rintro ⟨g, ⟨o, ho, rfl⟩, hpg⟩
      exact ⟨o, ho, hpg⟩
    · rintro ⟨o, ho, hpo⟩
      exact ⟨A.paramsOf o, ⟨o, ho, rfl⟩, hpo⟩
  · intro o ho p hp g hg hpg
    rcases hrest with ⟨-, hpf, -⟩ | ⟨-, hpf, -⟩
    · rw [hpf] at ho
      exact List.not_mem_nil _ ho
    · rw [hpf] at ho
      obtain ⟨j, -, rfl⟩ := List.mem_map.mp ho
      rw [hpar] at hg
      obtain ⟨i, hi, rfl⟩ := List.mem_map.mp hg
      have hiB : i < B := List.mem_range.mp hi
      have h1 : p.1 = B + j := Arch.fst_of_mem_paramsOf hp
      have h2 : p.1 = i := Arch.fst_of_mem_paramsOf hpg
      omega

/-- Witness for the C6 theorem at `B = 2`, `beta = 1` (priors enabled). -/
theorem parameters_grouping_witness :
    (parameters scalarArch stB2p).length = 2 ∧
    (∀ i : Nat, (parameters scalarArch stB2p)[i]?
      = (stB2p.ensemble[i]?).map scalarArch.paramsOf) ∧
    List.Pairwise List.Disjoint (parameters scalarArch stB2p) ∧
    (∀ p : PRef, p ∈ (parameters scalarArch stB2p).flatten ↔
      ∃ o ∈ stB2p.ensemble, p ∈ scalarArch.paramsOf o) ∧
    (∀ o ∈ stB2p.prior_fns, ∀ p ∈ scalarArch.paramsOf o,
      ∀ g ∈ parameters scalarArch stB2p, p ∉ g) :=
  @parameters_grouping ℚ ℚ scalarArch scalarResets 2 1 stB2p rfl

/-- C4 (amended): an integer `mid` with `mid ≥ B` or `mid < -B` raises an
`IndexError` (no wrapping or clamping there); in particular `mid = 5` on a
`B = 3` ensemble raises.  Indices in `[-B, 0)` do not raise — Python list
indexing wraps them (see the C8 theorem). -/
theorem forward_mid_out_of_range {M W : Type} {A : Arch M W}
    {resets : Nat → M} {B : Nat} {beta : ℚ}
    {st : BootstrappedEstimator M W} (x : Tensor2) (m : Int)
    (sample : Nat → W) (h : init A resets B beta = .ok st)
    (hm : (B : Int) ≤ m ∨ m + (B : Int) < 0) :
    forward A st x (some m) sample = .error .indexError := by
  obtain ⟨hens, -, -, -⟩ := init_elim h
  have hlen : st.ensemble.length = B := by simp [hens]
  have hget : pyGet st.ensemble m = none :=
    pyGet_none (by rw [hlen]; exact pyIdxN_none hm)
  simp only [forward, hget]

/-- Witness for the amended C4 theorem: `mid = 5` on the concrete `B = 3`
ensemble raises `IndexError`. -/
theorem forward_mid_out_of_range_witness :
    forward scalarArch stB3 [[1]] (some 5) scalarSamples
      = .error .indexError :=
  @forward_mid_out_of_range ℚ ℚ scalarArch scalarResets 3 0 stB3
    [[1]] 5 scalarSamples (by decide) (by decide)

/-- C4 counterexample: `mid = -1` is outside `[0, B)` on the `B = 3`
ensemble, yet `forward(x, mid=-1)` raises nothing — it returns member 2's
output (Python list indexing wraps negative indices). -/
theorem forward_neg_mid_wraps_cex :
    init scalarArch scalarResets 3 0 = .ok stB3 ∧
    forward scalarArch stB3 [[1]] (some (-1)) scalarSamples
      ≠ .error .indexError := by
  decide

/-- Behaviour of `forward` with a member index that Python list indexing
resolves to position `j`: the member's output, plus — when priors exist —
the freshly resampled prior function's output, the sample being written
into `prior_fns[j]` in place. -/
theorem forward_mid_resolved {M W : Type} {A : Arch M W} {resets : Nat → M}
    {B : Nat} {beta : ℚ} {st : BootstrappedEstimator M W} {m : Int} {j : Nat}
    (h : init A resets B beta = .ok st) (hj : pyIdxN B m = some j)
    (x : Tensor2) (sample : Nat → W) :
    (beta = 0 →
      forward A st x (some m) sample = .ok (A.run (resets j) x, st)) ∧
    (beta ≠ 0 →
      forward A st x (some m) sample
        = .ok (t2add (A.run (resets j) x)
            (A.run (A.setWeightData (resets j) (sample 0)) x),
          { st with prior_fns := (st.prior_fns.set j
              ⟨B + j, A.setWeightData (resets j) (sample 0)⟩) })) := by
  obtain ⟨hens, hbno, hbeta, hrest⟩ := init_elim h
  have hjB : j < B := pyIdxN_lt hj
  have hlenE : st.ensemble.length = B := by simp [hens]
  have hmemE : pyGet st.ensemble m = some ⟨j, resets j⟩ := by
    rw [pyGet_of_idx (by rw [hlenE]; exact hj), hens, getElem?_rangeMap hjB]
  constructor
  · intro hb0
    rcases hrest with ⟨-, -, hpr⟩ | ⟨hbne, -, -⟩
    · have hempty : st.priors.isEmpty = true := by rw [hpr]; rfl
      simp [forward, hmemE, hempty]
    · exact absurd hb0 hbne
  · intro hbne
    rcases hrest with ⟨hb0, -, -⟩ | ⟨-, hpf, locs, hlocs, hpr⟩
    · exact absurd hb0 hbne
    · have hlocsLen : locs.length = B := by simpa using weightsOf_length hlocs
      have hprLen : st.priors.length = B := by simp [hpr, hlocsLen]
      have hpfLen : st.prior_fns.length = B := by simp [hpf]
      have hprNe : st.priors ≠ [] := by
        intro hc
        rw [hc] at hprLen
        simp at hprLen
        omega
      have hempty : st.priors.isEmpty = false := by
        cases hpe : st.priors with
        | nil => exact absurd hpe hprNe
        | cons a l => rfl
      have hpget : pyGet st.priors m = some (st.priors.get ⟨j, by omega⟩) := by
        rw [pyGet_of_idx (by rw [hprLen]; exact hj)]
        rw [List.getElem?_eq_getElem (by omega : j < st.priors.length)]
        rfl
      have hpfl : pyIdxN st.prior_fns.length m = some j := by
        rw [hpfLen]; exact hj
      have hpfj : st.prior_fns[j]? = some ⟨B + j, resets j⟩ := by
        rw [hpf]; exact getElem?_rangeMap hjB
      simp [forward, hmemE, hempty, hpget, hpfl, hpfj]

/-- C2: for `0 ≤ mid < B`, `forward(x, mid)` returns `member[mid](x)` alone
when `beta = 0`, and `member[mid](x) + prior_function[mid](x)` when
`beta > 0`, where `prior_function[mid]`'s weight has just been overwritten
by a fresh sample drawn from `prior_distribution[mid]` before that prior
forward pass (written in place, preserving the prior function's object
identity; members are untouched). -/
theorem forward_train_member {M W : Type} {A : Arch M W} {resets : Nat → M}
    {B : Nat} {beta : ℚ} {st : BootstrappedEstimator M W} {m : Int}
    (h : init A resets B beta = .ok st) (hm0 : 0 ≤ m) (hmB : m < (B : Int))
    (x : Tensor2) (sample : Nat → W) :
    (beta = 0 → forward A st x (some m) sample
      = .ok (A.run (resets m.toNat) x, st)) ∧
    (0 < beta → forward A st x (some m) sample
      = .ok (t2add (A.run (resets m.toNat) x)
          (A.run (A.setWeightData (resets m.toNat) (sample 0)) x),
        { st with prior_fns := (st.prior_fns.set m.toNat
            ⟨B + m.toNat, A.setWeightData (resets m.toNat) (sample 0)⟩) })) := by
  have hres := forward_mid_resolved h (pyIdxN_nonneg hm0 hmB) x sample
  exact ⟨hres.1, fun hb => hres.2 (ne_of_gt hb)⟩

/-- Witness for the C2 theorem at `B = 2`, `beta = 1`, `mid = 1`. -/
theorem forward_train_member_witness :
    ((1 : ℚ) = 0 → forward scalarArch stB2p [[1]] (some 1) scalarSamples
      = .ok (scalarArch.run (scalarResets (1 : Int).toNat) [[1]], stB2p)) ∧
    (0 < (1 : ℚ) → forward scalarArch stB2p [[1]] (some 1) scalarSamples
      = .ok (t2add (scalarArch.run (scalarResets (1 : Int).toNat) [[1]])
          (scalarArch.run (scalarArch.setWeightData
            (scalarResets (1 : Int).toNat) (scalarSamples 0)) [[1]]),
        { stB2p with prior_fns := (stB2p.prior_fns.set (1 : Int).toNat
            ⟨2 + (1 : Int).toNat, scalarArch.setWeightData
              (scalarResets (1 : Int).toNat) (scalarSamples 0)⟩) })) :=
  @forward_train_member ℚ ℚ scalarArch scalarResets 2 1 stB2p 1 rfl
    (by decide) (by decide) [[1]] scalarSamples

/-- C8: for `-B ≤ mid < 0`, `forward(x, mid)` raises no error — Python list
indexing wraps the negative index — and behaves exactly like
`forward(x, B + mid)`: member `B + mid`'s output, plus (when `beta > 0`)
the freshly resampled prior function `B + mid`'s output. -/
theorem forward_neg_mid_wraps {M W : Type} {A : Arch M W} {resets : Nat → M}
    {B : Nat} {beta : ℚ} {st : BootstrappedEstimator M W} {m : Int}
    (h : init A resets B beta = .ok st) (hm0 : m < 0)
    (hmB : 0 ≤ m + (B : Int)) (x : Tensor2) (sample : Nat → W) :
    (beta = 0 → forward A st x (some m) sample
      = .ok (A.run (resets (m + (B : Int)).toNat) x, st)) ∧
    (0 < beta → forward A st x (some m) sample
      = .ok (t2add (A.run (resets (m + (B : Int)).toNat) x)
          (A.run (A.setWeightData (resets (m + (B : Int)).toNat)
            (sample 0)) x),
        { st with prior_fns := (st.prior_fns.set (m + (B : Int)).toNat
            ⟨B + (m + (B : Int)).toNat, A.setWeightData
              (resets (m + (B : Int)).toNat) (sample 0)⟩) })) := by
  have hres := forward_mid_resolved h (pyIdxN_negIdx hmB hm0) x sample
  exact ⟨hres.1, fun hb => hres.2 (ne_of_gt hb)⟩

/-- Witness for the C8 theorem at `B = 3`, `beta = 0`, `mid = -1`. -/
theorem forward_neg_mid_wraps_witness :
    ((0 : ℚ) = 0 → forward scalarArch stB3 [[1]] (some (-1)) scalarSamples
      = .ok (scalarArch.run (scalarResets ((-1) + ((3 : Nat) : Int)).toNat)
          [[1]], stB3)) ∧
    (0 < (0 : ℚ) → forward scalarArch stB3 [[1]] (some (-1)) scalarSamples
      = .ok (t2add (scalarArch.run
            (scalarResets ((-1) + ((3 : Nat) : Int)).toNat) [[1]])
          (scalarArch.run (scalarArch.setWeightData
            (scalarResets ((-1) + ((3 : Nat) : Int)).toNat)
            (scalarSamples 0)) [[1]]),
        { stB3 with prior_fns := (stB3.prior_fns.set
            ((-1) + ((3 : Nat) : Int)).toNat
            ⟨3 + ((-1) + ((3 : Nat) : Int)).toNat, scalarArch.setWeightData
              (scalarResets ((-1) + ((3 : Nat) : Int)).toNat)
              (scalarSamples 0)⟩) })) :=
  @forward_neg_mid_wraps ℚ ℚ scalarArch scalarResets 3 0 stB3 (-1) rfl
    (by decide) (by decide) [[1]] scalarSamples

/-- Resampling all priors of a freshly constructed ensemble: prior function
`i` keeps its identity `B + i` and gets weight `sample i`. -/
theorem resampleAll_init {M W : Type} (A : Arch M W) (sample : Nat → W)
    (resets : Nat → M) (B : Nat) :
    resampleAll A sample 0 ((List.range B).map (fun i => ⟨B + i, resets i⟩)) B
      = (List.range B).map
          (fun i => ⟨B + i, A.setWeightData (resets i) (sample i)⟩) := by
  apply List.ext_getElem?
  intro i
  rw [resampleAll_getElem? A sample 0 _ B i]
  by_cases hi : i < B
  · rw [getElem?_rangeMap hi, getElem?_rangeMap hi]
    simp [hi]
  · rw [getElem?_rangeMap_none (by omega), getElem?_rangeMap_none (by omega)]
    rfl

/-- C1: with `mid` omitted, `forward(x)` returns the element-wise mean,
across the new leading (stacking) axis, of the `B` per-member outputs:
with `beta = 0` member `i` contributes `member[i](x)`; with `beta > 0` it
contributes `member[i](x) + prior_function[i](x)`, the prior function's
weight having been overwritten by a fresh sample of `prior_distribution[i]`
just before the pass. -/
theorem forward_infer_mean {M W : Type} {A : Arch M W} {resets : Nat → M}
    {B : Nat} {beta : ℚ} {st : BootstrappedEstimator M W} {x : Tensor2}
    {n d : Nat} (sample : Nat → W)
    (h : init A resets B beta = .ok st) (hB : 1 ≤ B)
    (hmem : ∀ i, i < B → HasShape (A.run (resets i) x) n d)
    (hpri : ∀ i, i < B →
      HasShape (A.run (A.setWeightData (resets i) (sample i)) x) n d) :
    (beta = 0 → ∃ y, forward A st x none sample = .ok (y, st) ∧
      ∀ b, b < n → ∀ c, c < d →
        t2get y b c = ((List.range B).map
          (fun i => t2get (A.run (resets i) x) b c)).sum / (B : ℚ)) ∧
    (beta ≠ 0 → ∃ y st2, forward A st x none sample = .ok (y, st2) ∧
      ∀ b, b < n → ∀ c, c < d →
        t2get y b c = ((List.range B).map
          (fun i => t2get (A.run (resets i) x) b c
            + t2get (A.run (A.setWeightData (resets i) (sample i)) x) b c)).sum
          / (B : ℚ)) := by
  obtain ⟨hens, hbno, hbeta, hrest⟩ := init_elim h
  constructor
  · intro hb0
    rcases hrest with ⟨-, -, hpr⟩ | ⟨hbne, -, -⟩
    · have hempty : st.priors.isEmpty = true := by rw [hpr]; rfl
      have hmaps : st.ensemble.map (fun o => A.run o.state x)
          = (List.range B).map (fun i => A.run (resets i) x) := by
        rw [hens, List.map_map]
        rfl
      have hys : ∀ y ∈ (List.range B).map (fun i => A.run (resets i) x),
          HasShape y n d := by
        intro y hy
        obtain ⟨i, hi, rfl⟩ := List.mem_map.mp hy
        exact hmem i (List.mem_range.mp hi)
      refine ⟨stackMean ((List.range B).map (fun i => A.run (resets i) x)),
        ?_, ?_⟩
      · simp [forward, hempty, hmaps]
      · intro b hb c hc
        rw [t2get_stackMean hys b c]
        simp only [List.map_map, List.length_map, List.length_range,
          Function.comp_def]
    · exact absurd hb0 hbne
  · intro hbne
    rcases hrest with ⟨hb0, -, -⟩ | ⟨-, hpf, locs, hlocs, hpr⟩
    · exact absurd hb0 hbne
    · have hlocsLen : locs.length = B := by simpa using weightsOf_length hlocs
      have hprLen : st.priors.length = B := by simp [hpr, hlocsLen]
      have hprNe : st.priors ≠ [] := by
        intro hc
        rw [hc] at hprLen
        simp at hprLen
        omega
      have hempty : st.priors.isEmpty = false := by
        cases hpe : st.priors with
        | nil => exact absurd hpe hprNe
        | cons a l => rfl
      have hres : resampleAll A sample 0 st.prior_fns st.priors.length
          = (List.range B).map
              (fun i => ⟨B + i, A.setWeightData (resets i) (sample i)⟩) := by
        rw [hpf, hprLen]
        exact resampleAll_init A sample resets B
      have hzip : List.zipWith
          (fun mo po => t2add (A.run mo.state x) (A.run po.state x))
          st.ensemble ((List.range B).map
            (fun i => (⟨B + i, A.setWeightData (resets i) (sample i)⟩ : Obj M)))
          = (List.range B).map (fun i => t2add (A.run (resets i) x)
              (A.run (A.setWeightData (resets i) (sample i)) x)) := by
        rw [hens, List.zipWith_map, List.zipWith_same]
      have hys : ∀ y ∈ (List.range B).map (fun i => t2add (A.run (resets i) x)
          (A.run (A.setWeightData (resets i) (sample i)) x)), HasShape y n d := by
        intro y hy
        obtain ⟨i, hi, rfl⟩ := List.mem_map.mp hy
        have hiB := List.mem_range.mp hi
        exact t2add_shape (hmem i hiB) (hpri i hiB)
      refine ⟨stackMean ((List.range B).map (fun i => t2add (A.run (resets i) x)
          (A.run (A.setWeightData (resets i) (sample i)) x))),
        { st with prior_fns := ((List.range B).map
            (fun i => ⟨B + i, A.setWeightData (resets i) (sample i)⟩)) },
        ?_, ?_⟩
      · simp [forward, hempty, hres, hzip]
      · intro b hb c hc
        rw [t2get_stackMean hys b c]
        have hcongr : ((List.range B).map (fun i => t2add (A.run (resets i) x)
            (A.run (A.setWeightData (resets i) (sample i)) x))).map
              (fun y => t2get y b c)
            = (List.range B).map (fun i => t2get (A.run (resets i) x) b c
              + t2get (A.run (A.setWeightData (resets i) (sample i)) x) b c) := by
          rw [List.map_map]
          refine List.map_congr_left ?_
          intro i hi
          have hiB := List.mem_range.mp hi
          exact t2get_add (hmem i hiB) (hpri i hiB) b c
        rw [hcongr]
        simp

/-- Witness for the C1 theorem at `B = 2`, `beta = 1`, priors enabled. -/
theorem forward_infer_mean_witness :
    ((1 : ℚ) = 0 → ∃ y, forward scalarArch stB2p [[1]] none scalarSamples
      = .ok (y, stB2p) ∧
      ∀ b, b < 1 → ∀ c, c < 1 →
        t2get y b c = ((List.range 2).map
          (fun i => t2get (scalarArch.run (scalarResets i) [[1]]) b c)).sum
          / ((2 : Nat) : ℚ)) ∧
    ((1 : ℚ) ≠ 0 → ∃ y st2,
      forward scalarArch stB2p [[1]] none scalarSamples = .ok (y, st2) ∧
      ∀ b, b < 1 → ∀ c, c < 1 →
        t2get y b c = ((List.range 2).map
          (fun i => t2get (scalarArch.run (scalarResets i) [[1]]) b c
            + t2get (scalarArch.run (scalarArch.setWeightData (scalarResets i)
                (scalarSamples i)) [[1]]) b c)).sum / ((2 : Nat) : ℚ)) :=
  @forward_infer_mean ℚ ℚ scalarArch scalarResets 2 1 stB2p [[1]] 1 1
    scalarSamples rfl (by decide) (by decide) (by decide)

/-- The `B ≥ 2` branch of `stackVar`, written out. -/
theorem stackVar_eq_of_two {ys : List Tensor2} (h2 : 2 ≤ ys.length) :
    stackVar ys = (t2smul (1 / ((ys.length : ℚ) - 1))
      (t2sum (ys.map (fun z =>
        t2mul (t2sub z (stackMean ys)) (t2sub z (stackMean ys)))))).map
      (fun row => row.map some) := by
  cases ys with
  | nil => simp at h2
  | cons y rest =>
    have hif : ¬ ((y :: rest).length ≤ 1) := by
      simp only [List.length_cons] at h2 ⊢
      omega
    simp only [stackVar]
    rw [if_neg hif]

/-- Shape of the tensor underlying the `B ≥ 2` branch of `stackVar`. -/
theorem stackVarCore_shape {ys : List Tensor2} {n d : Nat} (hne : ys ≠ [])
    (hys : ∀ y ∈ ys, HasShape y n d) :
    HasShape (t2smul (1 / ((ys.length : ℚ) - 1))
      (t2sum (ys.map (fun z =>
        t2mul (t2sub z (stackMean ys)) (t2sub z (stackMean ys)))))) n d := by
  have hμ : HasShape (stackMean ys) n d := stackMean_shape hne hys
  have hneM : (ys.map (fun z =>
      t2mul (t2sub z (stackMean ys)) (t2sub z (stackMean ys)))) ≠ [] := by
    simpa using hne
  refine t2smul_shape _ (t2sum_shape hneM ?_)
  intro z hz
  obtain ⟨z0, hz0, rfl⟩ := List.mem_map.mp hz
  exact t2mul_shape (t2sub_shape (hys _ hz0) hμ) (t2sub_shape (hys _ hz0) hμ)

/-- C3: `var(x, action)` is computed from the `B` raw member predictions
only — prior functions are never added, whatever `beta` and whatever the
prior state (any state with the same members gives the same answer).  With
`action` omitted it returns the full per-batch, per-output tensor of
element-wise (unbiased) variances across the stacked leading axis; with
`action` given it returns only the scalar at the first batch element's
`action`-th output dimension of that same tensor. -/
theorem var_members_only {M W : Type} {A : Arch M W} {resets : Nat → M}
    {B : Nat} {beta : ℚ} {st : BootstrappedEstimator M W} {x : Tensor2}
    {n d : Nat}
    (h : init A resets B beta = .ok st) (h2 : 2 ≤ B)
    (hmem : ∀ i, i < B → HasShape (A.run (resets i) x) n d) :
    (∀ (st2 : BootstrappedEstimator M W) (action : Option Nat),
      st2.ensemble = st.ensemble → var A st2 x action = var A st x action) ∧
    (var A st x none = .ok (.full (stackVar
      ((List.range B).map (fun i => A.run (resets i) x)))) ∧
     ∀ b, b < n → ∀ c, c < d →
      vget (stackVar ((List.range B).map (fun i => A.run (resets i) x))) b c
        = some (((List.range B).map (fun i =>
            (t2get (A.run (resets i) x) b c - ((List.range B).map (fun k =>
              t2get (A.run (resets k) x) b c)).sum / (B : ℚ)) ^ 2)).sum
          / ((B : ℚ) - 1))) ∧
    (∀ a, a < d → 0 < n →
      var A st x (some a) = .ok (.scalar (vget (stackVar
        ((List.range B).map (fun i => A.run (resets i) x))) 0 a))) := by
  obtain ⟨hens, hbno, hbeta, hrest⟩ := init_elim h
  have hmaps : st.ensemble.map (fun o => A.run o.state x)
      = (List.range B).map (fun i => A.run (resets i) x) := by
    rw [hens, List.map_map]
    rfl
  have hys : ∀ y ∈ (List.range B).map (fun i => A.run (resets i) x),
      HasShape y n d := by
    intro y hy
    obtain ⟨i, hi, rfl⟩ := List.mem_map.mp hy
    exact hmem i (List.mem_range.mp hi)
  have hlen : ((List.range B).map (fun i => A.run (resets i) x)).length
      = B := by simp
  have h2len : 2 ≤ ((List.range B).map (fun i => A.run (resets i) x)).length := by
    omega
  refine ⟨?_, ⟨?_, ?_⟩, ?_⟩
  · intro st2 act hens2
    simp only [var, hens2]
  · simp only [var, hmaps]
  · intro b hb c hc
    rw [vget_stackVar h2len hys hb hc]
    simp only [List.map_map, List.length_map, List.length_range,
      Function.comp_def]
  · intro a ha hn
    have hcore := @stackVarCore_shape
      ((List.range B).map (fun i => A.run (resets i) x)) n d
      (by rw [← List.length_pos_iff_ne_nil]; omega) hys
    obtain ⟨r, hr0, hrl⟩ := hcore.row hn
    have hrowmap : (stackVar ((List.range B).map
        (fun i => A.run (resets i) x)))[0]? = some (r.map some) := by
      rw [stackVar_eq_of_two h2len, List.getElem?_map, hr0]
      rfl
    have hra : (r.map some)[a]? = some (some (r.get ⟨a, by omega⟩)) := by
      rw [List.getElem?_map,
        List.getElem?_eq_getElem (show a < r.length by omega)]
      rfl
    have hvget : vget (stackVar ((List.range B).map
        (fun i => A.run (resets i) x))) 0 a
        = some (r.get ⟨a, by omega⟩) := by
      simp [vget, List.getD, hrowmap, hra]
    simp only [var, hmaps, hrowmap, hra, hvget]

/-- C10: `var` normalises by `B - 1`, not `B` (unbiased sample variance) —
on a `B = 1` ensemble every variance entry is the float division `0 / 0`,
i.e. `NaN` (`none`), on every input, rather than zero. -/
theorem var_single_member_nan {M W : Type} {A : Arch M W} {resets : Nat → M}
    {beta : ℚ} {st : BootstrappedEstimator M W} {x : Tensor2} {n d : Nat}
    (h : init A resets 1 beta = .ok st)
    (hsh : HasShape (A.run (resets 0) x) n d) :
    (∃ V, var A st x none = .ok (.full V) ∧
      ∀ b, b < n → ∀ c, c < d → vget V b c = none) ∧
    (∀ ys : List Tensor2, 2 ≤ ys.length → (∀ y ∈ ys, HasShape y n d) →
      ∀ b, b < n → ∀ c, c < d →
        vget (stackVar ys) b c = some ((ys.map (fun y => (t2get y b c -
          (ys.map (fun z => t2get z b c)).sum / (ys.length : ℚ)) ^ 2)).sum
          / ((ys.length : ℚ) - 1))) := by
  obtain ⟨hens, -, -, -⟩ := init_elim h
  have hmaps : st.ensemble.map (fun o => A.run o.state x)
      = [A.run (resets 0) x] := by
    rw [hens]
    rfl
  constructor
  · refine ⟨stackVar [A.run (resets 0) x], ?_, ?_⟩
    · simp only [var, hmaps]
    · intro b hb c hc
      exact vget_stackVar_single hsh hb hc
  · intro ys h2 hys b hb c hc
    exact vget_stackVar h2 hys hb hc

/-- Witness for the C3 theorem at `B = 2`, `beta = 0`. -/
theorem var_members_only_witness :
    (∀ (st2 : BootstrappedEstimator ℚ ℚ) (action : Option Nat),
      st2.ensemble = stB2.ensemble →
        var scalarArch st2 [[1]] action = var scalarArch stB2 [[1]] action) ∧
    (var scalarArch stB2 [[1]] none = .ok (.full (stackVar
      ((List.range 2).map (fun i => scalarArch.run (scalarResets i) [[1]])))) ∧
     ∀ b, b < 1 → ∀ c, c < 1 →
      vget (stackVar ((List.range 2).map
        (fun i => scalarArch.run (scalarResets i) [[1]]))) b c
        = some (((List.range 2).map (fun i =>
            (t2get (scalarArch.run (scalarResets i) [[1]]) b c
              - ((List.range 2).map (fun k =>
                t2get (scalarArch.run (scalarResets k) [[1]]) b c)).sum
                / ((2 : Nat) : ℚ)) ^ 2)).sum / (((2 : Nat) : ℚ) - 1))) ∧
    (∀ a, a < 1 → 0 < 1 →
      var scalarArch stB2 [[1]] (some a) = .ok (.scalar (vget (stackVar
        ((List.range 2).map (fun i => scalarArch.run (scalarResets i) [[1]])))
        0 a))) :=
  @var_members_only ℚ ℚ scalarArch scalarResets 2 0 stB2 [[1]] 1 1
    (by decide) (by decide) (by decide)

/-- Witness for the C10 theorem at `B = 1`. -/
theorem var_single_member_nan_witness :
    (∃ V, var scalarArch stB1 [[1]] none = .ok (.full V) ∧
      ∀ b, b < 1 → ∀ c, c < 1 → vget V b c = none) ∧
    (∀ ys : List Tensor2, 2 ≤ ys.length → (∀ y ∈ ys, HasShape y 1 1) →
      ∀ b, b < 1 → ∀ c, c < 1 →
        vget (stackVar ys) b c = some ((ys.map (fun y => (t2get y b c -
          (ys.map (fun z => t2get z b c)).sum / (ys.length : ℚ)) ^ 2)).sum
          / ((ys.length : ℚ) - 1))) :=
  @var_single_member_nan ℚ ℚ scalarArch scalarResets 0 stB1 [[1]] 1 1
    (by decide) (by decide)

/-- Construction with a priorless-incompatible prototype: when the
prototype exposes no `weight` attribute, enabling priors fails at the very
first `model.weight` lookup. -/
theorem init_no_weight {M W : Type} {A : Arch M W}
    (hA : ∀ m, A.getWeight m = none) (resets : Nat → M) {B : Nat}
    (hB : 1 ≤ B) {beta : ℚ} (hbeta : beta ≠ 0) :
    init A resets B beta = .error .attributeError := by
  have hw : weightsOf A
      ((List.range B).map (fun i => (⟨i, resets i⟩ : Obj M))) = none := by
    cases B with
    | zero => omega
    | succ B2 =>
      rw [List.range_succ_eq_map, List.map_cons]
      exact weightsOf_cons_none (hA _)
  unfold init
  rw [if_pos hbeta, hw]

/-- C9 (amended): a prototype without a top-level `weight` attribute cannot
have priors: `beta ≠ 0` construction raises `AttributeError` (for any
`B ≥ 1`).  Both repository prototypes lack such an attribute — the
two-layer `NonLinearEstimator` (attributes `fc1`, `fc2`) and also
`LinearEstimator` (whose sole attribute is the nested `linear` layer) — so
prior construction fails for each of them. -/
theorem priors_need_weight_attr {B : Nat} (hB : 1 ≤ B) {beta : ℚ}
    (hbeta : beta ≠ 0) (resetsNL : Nat → NonLinearEstimator)
    (resetsL : Nat → LinearEstimator) :
    init nonLinearArch resetsNL B beta = .error .attributeError ∧
    init linearArch resetsL B beta = .error .attributeError :=
  ⟨init_no_weight (fun _ => rfl) resetsNL hB hbeta,
   init_no_weight (fun _ => rfl) resetsL hB hbeta⟩

/-- Witness for the C9 theorem at `B = 1`, `beta = 1`. -/
theorem priors_need_weight_attr_witness :
    init nonLinearArch (fun _ => protoNonLinear) 1 1
      = .error .attributeError ∧
    init linearArch (fun _ => protoLinear) 1 1 = .error .attributeError :=
  @priors_need_weight_attr 1 (by decide) 1 (by decide)
    (fun _ => protoNonLinear) (fun _ => protoLinear)

/-- C9 counterexample: priors are not constructible over the repository's
`LinearEstimator`: its weight tensor lives at `linear.weight`, there is no
top-level `weight` attribute, so `beta = 1` construction raises
`AttributeError` rather than succeeding. -/
theorem linear_estimator_prior_fails_cex :
    init linearArch (fun _ => protoLinear) 1 1 = .error .attributeError := by
  decide

/-- What one successful `forward` call does to the stored state: members,
distributions, sizes and `beta` are untouched; a prior function is at most
overwritten in place (same object id) with its weight set to one of the
call's samples. -/
theorem forward_state {M W : Type} {A : Arch M W}
    {st : BootstrappedEstimator M W} {x : Tensor2} {mid : Option Int}
    {sample : Nat → W} {y : Tensor2} {st2 : BootstrappedEstimator M W}
    (h : forward A st x mid sample = .ok (y, st2)) :
    st2.ensemble = st.ensemble ∧ st2.bno = st.bno ∧ st2.beta = st.beta ∧
    st2.priors = st.priors ∧
    ∀ i : Nat, st2.prior_fns[i]? = st.prior_fns[i]? ∨
      ∃ o m w, st.prior_fns[i]? = some o ∧ (∃ k, w = sample k) ∧
        st2.prior_fns[i]? = some ⟨o.oid, A.setWeightData m w⟩ := by
  simp only [forward] at h
  split at h
  case _ m =>
    split at h
    · exact Except.noConfusion h
    case _ memb hmemb =>
      split at h
      · simp only [Except.ok.injEq, Prod.mk.injEq] at h
        obtain ⟨-, h2⟩ := h
        subst h2
        exact ⟨rfl, rfl, rfl, rfl, fun i => Or.inl rfl⟩
      · split at h
        · exact Except.noConfusion h
        · split at h
          · exact Except.noConfusion h
          case _ j hj =>
            split at h
            · exact Except.noConfusion h
            case _ pf hpf =>
              simp only [Except.ok.injEq, Prod.mk.injEq] at h
              obtain ⟨-, h2⟩ := h
              subst h2
              refine ⟨rfl, rfl, rfl, rfl, ?_⟩
              intro i
              have hjlen : j < st.prior_fns.length := by
                rcases List.getElem?_eq_some.mp hpf with ⟨hlt, -⟩
                exact hlt
              by_cases hij : i = j
              · subst hij
                refine Or.inr ⟨pf, pf.state, sample 0, hpf, ⟨0, rfl⟩, ?_⟩
                rw [List.getElem?_set, if_pos rfl, if_pos hjlen]
              · refine Or.inl ?_
                rw [List.getElem?_set, if_neg (by omega : ¬ j = i)]
  · split at h
    · simp only [Except.ok.injEq, Prod.mk.injEq] at h
      obtain ⟨-, h2⟩ := h
      subst h2
      exact ⟨rfl, rfl, rfl, rfl, fun i => Or.inl rfl⟩
    · simp only [Except.ok.injEq, Prod.mk.injEq] at h
      obtain ⟨-, h2⟩ := h
      subst h2
      refine ⟨rfl, rfl, rfl, rfl, ?_⟩
      intro i
      rw [resampleAll_getElem? A sample 0 st.prior_fns st.priors.length i]
      cases hoi : st.prior_fns[i]? with
      | none => exact Or.inl rfl
      | some o =>
        by_cases hin : i < st.priors.length
        · exact Or.inr ⟨o, o.state, sample (0 + i), rfl, ⟨0 + i, rfl⟩,
            by simp [hin]⟩
        · refine Or.inl ?_
          simp [hin]

/-- `w` drawn by the head call is drawn by the call list. -/
theorem drawOf_head {W : Type} {op : Op W} {rest : List (Op W)} {w : W}
    (h : op.hasDraw w) : drawOf (op :: rest) w :=
  ⟨op, List.mem_cons_self op rest, h⟩

/-- `w` drawn by a later call is drawn by the call list. -/
theorem drawOf_tail {W : Type} {op : Op W} {rest : List (Op W)} {w : W}
    (h : drawOf rest w) : drawOf (op :: rest) w := by
  obtain ⟨op2, hm, hd⟩ := h
  exact ⟨op2, List.mem_cons_of_mem _ hm, hd⟩

/-- What one `step` (a `forward` or `var` call, errors included) does to the
state. -/
theorem step_state {M W : Type} (A : Arch M W)
    (st : BootstrappedEstimator M W) (op : Op W) :
    (step A st op).ensemble = st.ensemble ∧
    (step A st op).bno = st.bno ∧
    (step A st op).beta = st.beta ∧
    (step A st op).priors = st.priors ∧
    ∀ i : Nat, (step A st op).prior_fns[i]? = st.prior_fns[i]? ∨
      ∃ o m w, st.prior_fns[i]? = some o ∧ op.hasDraw w ∧
        (step A st op).prior_fns[i]? = some ⟨o.oid, A.setWeightData m w⟩ := by
  cases op with
  | varCall x a => exact ⟨rfl, rfl, rfl, rfl, fun i => Or.inl rfl⟩
  | fwd x mid sample =>
    simp only [step]
    cases hf : forward A st x mid sample with
    | error e => exact ⟨rfl, rfl, rfl, rfl, fun i => Or.inl rfl⟩
    | ok p =>
      obtain ⟨y, st2⟩ := p
      have hs := forward_state hf
      refine ⟨hs.1, hs.2.1, hs.2.2.1, hs.2.2.2.1, ?_⟩
      intro i
      rcases hs.2.2.2.2 i with h1 | ⟨o, m, w, ho, hk, hset⟩
      · exact Or.inl h1
      · exact Or.inr ⟨o, m, w, ho, hk, hset⟩

/-- What a whole call sequence does to the state: members, distributions
and `beta` are invariant; each prior function is either untouched or has
had its weight overwritten (identity preserved) by some drawn sample. -/
theorem runOps_state {M W : Type} (A : Arch M W) :
    ∀ (ops : List (Op W)) (st : BootstrappedEstimator M W),
      (runOps A st ops).ensemble = st.ensemble ∧
      (runOps A st ops).bno = st.bno ∧
      (runOps A st ops).beta = st.beta ∧
      (runOps A st ops).priors = st.priors ∧
      ∀ i : Nat, (runOps A st ops).prior_fns[i]? = st.prior_fns[i]? ∨
        ∃ o m w, st.prior_fns[i]? = some o ∧ drawOf ops w ∧
          (runOps A st ops).prior_fns[i]? = some ⟨o.oid, A.setWeightData m w⟩ := by
  intro ops
  induction ops with
  | nil => exact fun st => ⟨rfl, rfl, rfl, rfl, fun i => Or.inl rfl⟩
  | cons op rest ih =>
    intro st
    have hstep := step_state A st op
    have hrest := ih (step A st op)
    refine ⟨hrest.1.trans hstep.1, hrest.2.1.trans hstep.2.1,
      hrest.2.2.1.trans hstep.2.2.1, hrest.2.2.2.1.trans hstep.2.2.2.1, ?_⟩
    intro i
    rcases hrest.2.2.2.2 i with h1 | ⟨o, m, w, ho, hdw, hset⟩
    · rcases hstep.2.2.2.2 i with h2 | ⟨o2, m2, w2, ho2, hdw2, hset2⟩
      · exact Or.inl (h1.trans h2)
      · exact Or.inr ⟨o2, m2, w2, ho2, drawOf_head hdw2, h1.trans hset2⟩
    · rcases hstep.2.2.2.2 i with h2 | ⟨o2, m2, w2, ho2, hdw2, hset2⟩
      · exact Or.inr ⟨o, m, w, h2 ▸ ho, drawOf_tail hdw, hset⟩
      · have heq := hset2.symm.trans ho
        injection heq with heq
        have hoid : o.oid = o2.oid := by rw [← heq]
        exact Or.inr ⟨o2, m, w, ho2, drawOf_tail hdw,
          hset.trans (by rw [hoid])⟩

/-- C5: for a `beta > 0` ensemble, every prior distribution records, for
its whole life, the member's construction-time weight as `loc` and
`0.1 * beta` as scale, and no sequence of `forward`/`var` calls ever
changes the distributions (or the members, or `beta`); prior functions are
only ever overwritten — in place, identity preserved — by weight
assignments of drawn samples, never by anything else (in particular, never
by a gradient step: no such operation exists on them). -/
theorem prior_distributions_immutable {M W : Type} {A : Arch M W}
    {resets : Nat → M} {B : Nat} {beta : ℚ}
    {st : BootstrappedEstimator M W}
    (h : init A resets B beta = .ok st) (hbeta : 0 < beta) :
    (∀ i, i < B → ∃ loc, A.getWeight (resets i) = some loc ∧
      st.priors[i]? = some (loc, 1/10 * beta)) ∧
    (∀ ops : List (Op W),
      (runOps A st ops).priors = st.priors ∧
      (runOps A st ops).ensemble = st.ensemble ∧
      (runOps A st ops).beta = st.beta ∧
      ∀ i : Nat, (runOps A st ops).prior_fns[i]? = st.prior_fns[i]? ∨
        ∃ o m w, st.prior_fns[i]? = some o ∧ drawOf ops w ∧
          (runOps A st ops).prior_fns[i]?
            = some ⟨o.oid, A.setWeightData m w⟩) := by
  obtain ⟨hens, hbno, hbeta2, hrest⟩ := init_elim h
  constructor
  · intro i hi
    rcases hrest with ⟨hb0, -, -⟩ | ⟨-, -, locs, hlocs, hpr⟩
    · exact absurd hb0 (ne_of_gt hbeta)
    · have hlocsLen : locs.length = B := by simpa using weightsOf_length hlocs
      have hli : locs[i]? = A.getWeight (resets i) := by
        rw [weightsOf_getElem? hlocs i, getElem?_rangeMap hi]
        rfl
      have hsome : locs[i]? = some (locs.get ⟨i, by omega⟩) :=
        (List.getElem?_eq_getElem (by omega)).trans rfl
      refine ⟨locs.get ⟨i, by omega⟩, by rw [← hli, hsome], ?_⟩
      rw [hpr, List.getElem?_map, hsome]
      rfl
  · intro ops
    have hr := runOps_state A ops st
    exact ⟨hr.2.2.2.1, hr.1, hr.2.2.1, hr.2.2.2.2⟩

/-- Witness for the C5 theorem at `B = 1`, `beta = 1`. -/
theorem prior_distributions_immutable_witness :
    (∀ i, i < 1 → ∃ loc, scalarArch.getWeight (scalarResets i) = some loc ∧
      stB1p.priors[i]? = some (loc, 1/10 * 1)) ∧
    (∀ ops : List (Op ℚ),
      (runOps scalarArch stB1p ops).priors = stB1p.priors ∧
      (runOps scalarArch stB1p ops).ensemble = stB1p.ensemble ∧
      (runOps scalarArch stB1p ops).beta = stB1p.beta ∧
      ∀ i : Nat,
        (runOps scalarArch stB1p ops).prior_fns[i]? = stB1p.prior_fns[i]? ∨
        ∃ o m w, stB1p.prior_fns[i]? = some o ∧ drawOf ops w ∧
          (runOps scalarArch stB1p ops).prior_fns[i]?
            = some ⟨o.oid, scalarArch.setWeightData m w⟩) :=
  @prior_distributions_immutable ℚ ℚ scalarArch scalarResets 1 1 stB1p
    rfl (by decide)

end Theodon
